import Mathlib

/-!
Verification of the synacor/argon2id password-hashing core (src/argon2id.go).

Shallow embedding conventions:
* Go byte slices are `List Nat` whose members are < 256 (stated as hypotheses
  where the arithmetic needs it); Go strings on the record side are `List Char`.
* The external argon2 derivation primitive `argon2.IDKey` is an explicit
  function parameter `idKey` (deterministic because it is a function); the
  external randomness source `rand.Read` is a parameter `randRead` returning
  either the requested bytes or an error code.
* Go's `base64.NewEncoding(alphabet).WithPadding(NoPadding)` encoder/decoder
  (the "Alphabet Codec") is embedded byte-for-byte, including the decoder's
  non-strict handling of trailing bits, its skipping of CR/LF, and the
  positions carried by `base64.CorruptInputError`.
-/

deriving instance DecidableEq for Except

namespace Argon2id

/-! ### Alphabet Codec (argon2id.go line 48) -/

/-- The crypt-style base64 alphabet from argon2id.go line 48. -/
def alphabet : List Char :=
  "./ABCDEFGHIJKLMNOPQRSTUVWXYZabcdefghijklmnopqrstuvwxyz0123456789".toList

/-- Character standing for a 6-bit value, as `Encoding.Encode` indexes the alphabet. -/
def encChar (n : Nat) : Char := alphabet.getD n '.'

/-- The decode map: the 6-bit value of a character, `none` when the character
is outside the alphabet (Go's `decodeMap` entry `0xff`). -/
def sixBit (c : Char) : Option Nat := alphabet.findIdx? (fun x => x == c)

/-- `Encoding.EncodeToString` without padding: 3-byte groups become 4
characters; a 2-byte remainder becomes 3 characters and a 1-byte remainder 2
characters, exactly as in Go's `encoding/base64`. -/
def encodeBytes : List Nat → List Char
  | b0 :: b1 :: b2 :: rest =>
      encChar (b0 / 4) :: encChar ((b0 % 4) * 16 + b1 / 16) ::
      encChar ((b1 % 16) * 4 + b2 / 64) :: encChar (b2 % 64) :: encodeBytes rest
  | [b0, b1] => [encChar (b0 / 4), encChar ((b0 % 4) * 16 + b1 / 16), encChar ((b1 % 16) * 4)]
  | [b0] => [encChar (b0 / 4), encChar ((b0 % 4) * 16)]
  | [] => []

/-- Decode failure, mirroring `base64.CorruptInputError` with the byte
position Go reports. -/
inductive DecodeErr where
  | corrupt (pos : Nat)
deriving DecidableEq, Repr

/-- Reassemble the bytes of one (possibly final, shortened) quantum of 6-bit
values, discarding trailing bits as Go's non-strict decoder does. -/
def quantumToBytes : List Nat → List Nat
  | [a, b] => [a * 4 + b / 16]
  | [a, b, c] => [a * 4 + b / 16, (b % 16) * 16 + c / 4]
  | [a, b, c, d] => [a * 4 + b / 16, (b % 16) * 16 + c / 4, (c % 4) * 64 + d]
  | _ => []

/-- Core of `Encoding.DecodeString` for an unpadded encoding: walk the input
collecting a quantum `dbuf` of up to four 6-bit values, skipping CR and LF,
failing with the Go-reported position on a character outside the alphabet or
on a final quantum of a single character. -/
def decodeCore : List Char → Nat → List Nat → Except DecodeErr (List Nat)
  | [], pos, dbuf =>
      match dbuf with
      | [] => .ok []
      | [_] => .error (.corrupt (pos - 1))
      | dbuf => .ok (quantumToBytes dbuf)
  | c :: rest, pos, dbuf =>
      if c = '\n' ∨ c = '\r' then decodeCore rest (pos + 1) dbuf
      else
        match sixBit c with
        | none => .error (.corrupt pos)
        | some v =>
            if dbuf.length = 3 then
              (decodeCore rest (pos + 1) []).map
                (fun bs => quantumToBytes (dbuf ++ [v]) ++ bs)
            else decodeCore rest (pos + 1) (dbuf ++ [v])

/-- `encoding.DecodeString` of argon2id.go. -/
def decodeString (s : List Char) : Except DecodeErr (List Nat) := decodeCore s 0 []

/-! ### Structural grammar (the anchored regex `rx`, argon2id.go line 72) -/

/-- A digit, the regex class `[0-9]`. -/
def isDigitCh (c : Char) : Bool := decide ('0' ≤ c) && decide (c ≤ '9')

/-- The regex class `[./a-zA-Z0-9]` (exactly the codec alphabet). -/
def isAlphCh (c : Char) : Bool :=
  c == '.' || c == '/' || (decide ('A' ≤ c) && decide (c ≤ 'Z')) ||
    (decide ('a' ≤ c) && decide (c ≤ 'z')) || isDigitCh c

/-- The literal head `\$argon2id` of the regex. -/
def headerChars : List Char := "$argon2id".toList

/-- Consume an exact literal from the head of the input. -/
def dropLit : List Char → List Char → Option (List Char)
  | [], s => some s
  | _ :: _, [] => none
  | c :: cs, x :: xs => if x = c then dropLit cs xs else none

/-- Match `[0-9]{lo,hi}` followed by the literal `stop`, returning the digit
group and the rest.  Because `stop` is not a digit, the greedy regex group is
exactly the maximal digit run, so this is the regex's unique match. -/
def munchDigits (lo hi : Nat) (stop : Char) (s : List Char) : Option (List Char × List Char) :=
  let d := s.takeWhile isDigitCh
  match s.dropWhile isDigitCh with
  | c :: r => if lo ≤ d.length ∧ d.length ≤ hi ∧ c = stop then some (d, r) else none
  | [] => none

/-- Match `[./a-zA-Z0-9]+` followed by the literal `stop`. -/
def munchAlph (stop : Char) (s : List Char) : Option (List Char × List Char) :=
  let d := s.takeWhile isAlphCh
  match s.dropWhile isAlphCh with
  | c :: r => if 1 ≤ d.length ∧ c = stop then some (d, r) else none
  | [] => none

/-- The six capture groups of `rx`. -/
structure RxMatch where
  version : List Char
  time : List Char
  memory : List Char
  threads : List Char
  salt : List Char
  hash : List Char
deriving DecidableEq, Repr

/-- Deterministic matcher for the anchored regex
`^\$argon2id([0-9]\x7b1,4\x7d)\$([0-9]\x7b1,10\x7d),([0-9]\x7b1,10\x7d),([0-9]\x7b1,3\x7d)\$([./a-zA-Z0-9]+)\$([./a-zA-Z0-9]+)$`.
Every separator is outside the class of the group before it, so the regex
language is unambiguous and maximal-munch yields exactly the regex's
submatches (theorem `rxMatch_iff_grammatical` ties this to the declarative
grammar). -/
def rxMatch (s : List Char) : Option RxMatch :=
  match dropLit headerChars s with
  | none => none
  | some r0 =>
    match munchDigits 1 4 '$' r0 with
    | none => none
    | some (v, r1) =>
      match munchDigits 1 10 ',' r1 with
      | none => none
      | some (t, r2) =>
        match munchDigits 1 10 ',' r2 with
        | none => none
        | some (m, r3) =>
          match munchDigits 1 3 '$' r3 with
          | none => none
          | some (th, r4) =>
            match munchAlph '$' r4 with
            | none => none
            | some (sa, r5) =>
              if (r5.takeWhile isAlphCh).length ≥ 1 ∧ r5.dropWhile isAlphCh = [] then
                some ⟨v, t, m, th, sa, r5.takeWhile isAlphCh⟩
              else none

/-- `IsHashedPassword` (argon2id.go lines 75-77): a bare regex match. -/
def IsHashedPassword (hashedPassword : List Char) : Bool :=
  (rxMatch hashedPassword).isSome

/-- Decimal value of a digit group, as `strconv.Atoi` computes it on the
regex-guaranteed all-digit input. -/
def digitsVal (l : List Char) : Nat :=
  l.foldl (fun a c => a * 10 + (c.toNat - 48)) 0

/-! ### Record parsing and verification (argon2id.go lines 112-165) -/

/-- `argon2.Version` of golang.org/x/crypto/argon2 (0x13). -/
def argon2Version : Nat := 19

/-- The parsed-record structure `hashed` of argon2id.go lines 53-59. -/
structure hashed where
  time : Nat
  memory : Nat
  threads : Nat
  hash : List Nat
  salt : List Nat
deriving DecidableEq, Repr

/-- The error kinds a parse or compare can surface (each a distinct Go error
value; `randomness` carries the external source's error unchanged). -/
inductive HashErr where
  | invalidHash
  | invalidComplexity
  | invalidArgon2Version
  | mismatchedHashAndPassword
  | decodeError (e : DecodeErr)
  | randomness (e : Nat)
deriving DecidableEq, Repr

/-- `newHashedFromHashedPassword` (argon2id.go lines 126-165): regex match,
version check, hash decode, salt decode, complexity bounds, in the source's
order. -/
def newHashedFromHashedPassword (hashedPassword : List Char) : Except HashErr hashed :=
  match rxMatch hashedPassword with
  | none => .error .invalidHash
  | some m =>
    if digitsVal m.version ≠ argon2Version then .error .invalidArgon2Version
    else
      match decodeString m.hash with
      | .error e => .error (.decodeError e)
      | .ok rawHash =>
        match decodeString m.salt with
        | .error e => .error (.decodeError e)
        | .ok rawSalt =>
          if digitsVal m.time = 0 ∨ digitsVal m.time > 4294967295 ∨
              digitsVal m.memory > 4294967295 ∨ digitsVal m.threads = 0 ∨
              digitsVal m.threads > 255 then
            .error .invalidComplexity
          else
            .ok ⟨digitsVal m.time, digitsVal m.memory, digitsVal m.threads, rawHash, rawSalt⟩

/-- `subtle.ConstantTimeCompare`: 0 on unequal lengths, else 1 exactly when
the or-accumulated xor of the byte pairs is zero. -/
def constantTimeCompare (x y : List Nat) : Nat :=
  if x.length ≠ y.length then 0
  else if (List.zipWith (fun a b => a ^^^ b) x y).foldl (fun a b => a ||| b) 0 = 0 then 1
  else 0

/-- The type of the external `argon2.IDKey` primitive:
password bytes, salt, time, memory, threads, keyLen ↦ derived key. -/
def IDKeyFn : Type := List Nat → List Nat → Nat → Nat → Nat → Nat → List Nat

/-- `Compare` (argon2id.go lines 112-124), with the derivation primitive as an
explicit parameter. -/
def Compare (idKey : IDKeyFn) (hashedPassword : List Char) (password : List Nat) :
    Except HashErr Unit :=
  match newHashedFromHashedPassword hashedPassword with
  | .error e => .error e
  | .ok h =>
    if constantTimeCompare h.hash (idKey password h.salt h.time h.memory h.threads h.hash.length) = 1 then
      .ok ()
    else .error .mismatchedHashAndPassword

/-! ### Hashing (argon2id.go lines 79-109, 167-175) -/

def defaultTime : Nat := 1
def defaultMemory : Nat := 64 * 1024
def defaultThreads : Nat := 4
def defaultKeyLen : Nat := 32
def saltLen : Nat := 16

/-- `generateSalt` (argon2id.go lines 167-175): ask the external randomness
source for `saltLen` bytes, propagating its error. -/
def generateSalt (randRead : Nat → Except Nat (List Nat)) : Except Nat (List Nat) :=
  match randRead saltLen with
  | .error e => .error e
  | .ok salt => .ok salt

/-- Fuel-driven digit renderer; the fuel-exhausted branch agrees with the
main branch whenever `n < 10`, and callers always supply enough fuel
(`natToStringAux_congr`). -/
def natToStringAux : Nat → Nat → List Char
  | 0, n => [Char.ofNat (48 + n % 10)]
  | fuel + 1, n =>
      if n < 10 then [Char.ofNat (48 + n)]
      else natToStringAux fuel (n / 10) ++ [Char.ofNat (48 + n % 10)]

/-- Decimal rendering of a number, as `fmt.Sprintf` `%d` prints it. -/
def natToString (n : Nat) : List Char := natToStringAux n n

/-- The `fmt.Sprintf` layout of argon2id.go line 108:
`$argon2id<version>$<time>,<memory>,<threads>$<salt>$<hash>`. -/
def formatRecord (version time memory threads : Nat) (salt hash : List Char) : List Char :=
  headerChars ++ (natToString version ++ '$' :: (natToString time ++ ',' :: (natToString memory ++
    ',' :: (natToString threads ++ '$' :: (salt ++ '$' :: hash)))))

/-- `HashPassword` (argon2id.go lines 85-109): default the zero-valued
parameters, draw a salt, derive, format. -/
def HashPassword (idKey : IDKeyFn) (randRead : Nat → Except Nat (List Nat))
    (password : List Nat) (time memory threads keyLen : Nat) : Except HashErr (List Char) :=
  let time := if time = 0 then defaultTime else time
  let memory := if memory = 0 then defaultMemory else memory
  let threads := if threads = 0 then defaultThreads else threads
  let keyLen := if keyLen = 0 then defaultKeyLen else keyLen
  match generateSalt randRead with
  | .error e => .error (.randomness e)
  | .ok salt =>
    .ok (formatRecord argon2Version time memory threads (encodeBytes salt)
      (encodeBytes (idKey password salt time memory threads keyLen)))

/-- `DefaultHashPassword` (argon2id.go lines 80-82). -/
def DefaultHashPassword (idKey : IDKeyFn) (randRead : Nat → Except Nat (List Nat))
    (password : List Nat) : Except HashErr (List Char) :=
  HashPassword idKey randRead password 0 0 0 0

/-- Declarative reading of the anchored grammar of §4.2: the text splits as
`$argon2id<1-4 digit version>$<1-10 digit time>,<1-10 digit memory>,<1-3 digit
threads>$<non-empty alphabet salt>$<non-empty alphabet hash>`. -/
def Grammatical (s : List Char) : Prop :=
  ∃ v t m th sa h : List Char,
    s = headerChars ++ (v ++ '$' :: (t ++ ',' :: (m ++ ',' :: (th ++ '$' :: (sa ++ '$' :: h))))) ∧
    (∀ c ∈ v, isDigitCh c = true) ∧ 1 ≤ v.length ∧ v.length ≤ 4 ∧
    (∀ c ∈ t, isDigitCh c = true) ∧ 1 ≤ t.length ∧ t.length ≤ 10 ∧
    (∀ c ∈ m, isDigitCh c = true) ∧ 1 ≤ m.length ∧ m.length ≤ 10 ∧
    (∀ c ∈ th, isDigitCh c = true) ∧ 1 ≤ th.length ∧ th.length ≤ 3 ∧
    (∀ c ∈ sa, isAlphCh c = true) ∧ 1 ≤ sa.length ∧
    (∀ c ∈ h, isAlphCh c = true) ∧ 1 ≤ h.length

/-- A record whose version field (18) differs from `argon2Version` and whose
salt segment (length 5) cannot decode: exercises the order of the version
check against the decode steps. -/
def egBadVersionBadSalt : List Char := "$argon2id18$1,65536,4$AAAAA$AAAA".toList

/-- A decodable string that is not a canonical encoding: its trailing 4 bits
are nonzero, so the non-strict decoder accepts it but re-encoding normalises
them away. -/
def egNonCanonical : List Char := ".B".toList

/-- A grammar-matching record with a well-formed hash segment but a salt
segment of length 5 ≡ 1 (mod 4), which no unpadded encoding produces. -/
def egBadSaltLen : List Char := "$argon2id19$1,65536,4$AAAAA$AAAA".toList

/-- A grammar-matching, decodable record with memory = 0 and every other
value in range. -/
def egMemoryZero : List Char := "$argon2id19$1,0,1$AAAA$BBBB".toList

/-- A record with version 18 but complexity values all in range. -/
def egBadVersionGoodComplexity : List Char := "$argon2id18$1,65536,4$AAAA$BBBB".toList

/-- A well-formed record with version 19 and small complexity values. -/
def egRecordA : List Char := "$argon2id19$1,2,3$AAAA$BBBB".toList

/-- A derivation stand-in returning `keyLen` zero bytes. -/
def egIdKeyZero : IDKeyFn := fun _ _ _ _ _ kl => List.replicate kl 0

/-- A derivation stand-in returning `keyLen` one bytes. -/
def egIdKeyOne : IDKeyFn := fun _ _ _ _ _ kl => List.replicate kl 1

/-- A randomness source always yielding sixteen bytes of value 65. -/
def egRandRead : Nat → Except Nat (List Nat) := fun _ => .ok (List.replicate 16 65)

/-- A randomness source that always fails with error code 7. -/
def egRandFail : Nat → Except Nat (List Nat) := fun _ => .error 7

def egV18 : List Char := "18".toList
def egV19 : List Char := "19".toList
def egT1 : List Char := "1".toList
def egM65536 : List Char := "65536".toList
def egM0 : List Char := "0".toList
def egTh4 : List Char := "4".toList
def egTh1 : List Char := "1".toList
def egSaltAAAAA : List Char := "AAAAA".toList
def egSaltAAAA : List Char := "AAAA".toList
def egHashAAAA : List Char := "AAAA".toList
def egHashBBBB : List Char := "BBBB".toList

/-- The capture groups of `egBadVersionBadSalt`. -/
def egBadVersionBadSaltMatch : RxMatch :=
  ⟨egV18, egT1, egM65536, egTh4, egSaltAAAAA, egHashAAAA⟩

/-- The capture groups of `egMemoryZero`. -/
def egMemoryZeroMatch : RxMatch :=
  ⟨egV19, egT1, egM0, egTh1, egSaltAAAA, egHashBBBB⟩

/-- The capture groups of `egBadVersionGoodComplexity`. -/
def egBadVersionGoodComplexityMatch : RxMatch :=
  ⟨egV18, egT1, egM65536, egTh4, egSaltAAAA, egHashBBBB⟩

/-- The capture groups of `egBadSaltLen`. -/
def egBadSaltLenMatch : RxMatch :=
  ⟨egV19, egT1, egM65536, egTh4, egSaltAAAAA, egHashAAAA⟩

/-! ### List scanning helpers -/

theorem takeWhile_append_stop {α : Type} (p : α → Bool) (xs ys : List α) (y : α)
    (hxs : ∀ x ∈ xs, p x = true) (hy : p y = false) :
    (xs ++ y :: ys).takeWhile p = xs ∧ (xs ++ y :: ys).dropWhile p = y :: ys := by
  induction xs with
  | nil => simp [List.takeWhile_cons, List.dropWhile_cons, hy]
  | cons a l ih =>
      have ha : p a = true := hxs a (by simp)
      have := ih (fun x hx => hxs x (by simp [hx]))
      simp [List.takeWhile_cons, List.dropWhile_cons, ha, this.1, this.2]

theorem takeWhile_all {α : Type} (p : α → Bool) (l : List α) (h : ∀ x ∈ l, p x = true) :
    l.takeWhile p = l ∧ l.dropWhile p = [] := by
  induction l with
  | nil => simp
  | cons a l ih =>
      have ha : p a = true := h a (by simp)
      have := ih (fun x hx => h x (by simp [hx]))
      simp [List.takeWhile_cons, List.dropWhile_cons, ha, this.1, this.2]

theorem mem_takeWhile {α : Type} (p : α → Bool) (l : List α) :
    ∀ x ∈ l.takeWhile p, p x = true := by
  induction l with
  | nil => simp
  | cons a l ih =>
      intro x hx
      rw [List.takeWhile_cons] at hx
      by_cases ha : p a = true
      · simp [ha] at hx
        rcases hx with h | h
        · exact h ▸ ha
        · exact ih x h
      · simp [Bool.eq_false_iff.mpr ha] at hx

theorem dropWhile_head_false {α : Type} (p : α → Bool) (l : List α) (c : α) (r : List α)
    (h : l.dropWhile p = c :: r) : p c = false := by
  induction l with
  | nil => simp at h
  | cons a l ih =>
      rw [List.dropWhile_cons] at h
      by_cases ha : p a = true
      · exact ih (by simpa [ha] using h)
      · have ha' := Bool.eq_false_iff.mpr ha
        simp [ha'] at h
        exact h.1 ▸ ha'

/-! ### Codec lemmas -/

theorem encChar_facts (v : Nat) (hv : v < 64) :
    sixBit (encChar v) = some v ∧ isAlphCh (encChar v) = true ∧
      encChar v ≠ '\n' ∧ encChar v ≠ '\r' := by
  have h : ∀ w : Fin 64, sixBit (encChar w.val) = some w.val ∧
      isAlphCh (encChar w.val) = true ∧ encChar w.val ≠ '\n' ∧ encChar w.val ≠ '\r' := by decide
  exact h ⟨v, hv⟩

theorem decodeCore_quad (a b c d : Nat) (ha : a < 64) (hb : b < 64) (hc : c < 64)
    (hd : d < 64) (rest : List Char) (pos : Nat) :
    decodeCore (encChar a :: encChar b :: encChar c :: encChar d :: rest) pos [] =
      (decodeCore rest (pos + 4) []).map (fun bs => quantumToBytes [a, b, c, d] ++ bs) := by
  obtain ⟨ha1, _, ha2, ha3⟩ := encChar_facts a ha
  obtain ⟨hb1, _, hb2, hb3⟩ := encChar_facts b hb
  obtain ⟨hc1, _, hc2, hc3⟩ := encChar_facts c hc
  obtain ⟨hd1, _, hd2, hd3⟩ := encChar_facts d hd
  simp [decodeCore, ha1, hb1, hc1, hd1, ha2, ha3, hb2, hb3, hc2, hc3, hd2, hd3]

theorem decodeCore_three (a b c : Nat) (ha : a < 64) (hb : b < 64) (hc : c < 64)
    (pos : Nat) :
    decodeCore [encChar a, encChar b, encChar c] pos [] = .ok (quantumToBytes [a, b, c]) := by
  obtain ⟨ha1, _, ha2, ha3⟩ := encChar_facts a ha
  obtain ⟨hb1, _, hb2, hb3⟩ := encChar_facts b hb
  obtain ⟨hc1, _, hc2, hc3⟩ := encChar_facts c hc
  simp [decodeCore, ha1, hb1, hc1, ha2, ha3, hb2, hb3, hc2, hc3]

theorem decodeCore_two (a b : Nat) (ha : a < 64) (hb : b < 64) (pos : Nat) :
    decodeCore [encChar a, encChar b] pos [] = .ok (quantumToBytes [a, b]) := by
  obtain ⟨ha1, _, ha2, ha3⟩ := encChar_facts a ha
  obtain ⟨hb1, _, hb2, hb3⟩ := encChar_facts b hb
  simp [decodeCore, ha1, hb1, ha2, ha3, hb2, hb3]

theorem decode_encode_core (bs : List Nat) (h : ∀ x ∈ bs, x < 256) :
    ∀ pos, decodeCore (encodeBytes bs) pos [] = .ok bs := by
  induction bs using encodeBytes.induct with
  | case1 b0 b1 b2 rest ih =>
      intro pos
      have h0 : b0 < 256 := h b0 (by simp)
      have h1 : b1 < 256 := h b1 (by simp)
      have h2 : b2 < 256 := h b2 (by simp)
      have ihp := ih (fun x hx => h x (by simp [hx]))
      rw [encodeBytes, decodeCore_quad _ _ _ _ (by omega) (by omega) (by omega) (by omega)]
      rw [ihp (pos + 4)]
      have hq : quantumToBytes [b0 / 4, b0 % 4 * 16 + b1 / 16, b1 % 16 * 4 + b2 / 64, b2 % 64]
          = [b0, b1, b2] := by
        simp only [quantumToBytes]
        congr 1
        · omega
        · congr 1
          · omega
          · congr 1
            omega
      simp [hq, Except.map]
  | case2 b0 b1 =>
      intro pos
      have h0 : b0 < 256 := h b0 (by simp)
      have h1 : b1 < 256 := h b1 (by simp)
      rw [encodeBytes, decodeCore_three _ _ _ (by omega) (by omega) (by omega)]
      have hq : quantumToBytes [b0 / 4, b0 % 4 * 16 + b1 / 16, b1 % 16 * 4] = [b0, b1] := by
        simp only [quantumToBytes]
        congr 1
        · omega
        · congr 1
          omega
      rw [hq]
  | case3 b0 =>
      intro pos
      have h0 : b0 < 256 := h b0 (by simp)
      rw [encodeBytes, decodeCore_two _ _ (by omega) (by omega)]
      have hq : quantumToBytes [b0 / 4, b0 % 4 * 16] = [b0] := by
        simp only [quantumToBytes]
        congr 1
        omega
      rw [hq]
  | case4 =>
      intro pos
      simp [encodeBytes, decodeCore]

/-! ### Decimal digit lemmas -/

theorem digitChar_facts (n : Nat) (hn : n < 10) :
    isDigitCh (Char.ofNat (48 + n)) = true ∧ (Char.ofNat (48 + n)).toNat = 48 + n ∧
      isAlphCh (Char.ofNat (48 + n)) = true := by
  have h : ∀ w : Fin 10, isDigitCh (Char.ofNat (48 + w.val)) = true ∧
      (Char.ofNat (48 + w.val)).toNat = 48 + w.val ∧
      isAlphCh (Char.ofNat (48 + w.val)) = true := by decide
  exact h ⟨n, hn⟩

theorem natToStringAux_congr :
    ∀ f1, ∀ f2 n, n ≤ f1 + 9 → n ≤ f2 + 9 → natToStringAux f1 n = natToStringAux f2 n := by
  intro f1
  induction f1 with
  | zero =>
      intro f2 n h1 _
      have hn : n < 10 := by omega
      cases f2 with
      | zero => rfl
      | succ g =>
          rw [natToStringAux, natToStringAux, if_pos hn, Nat.mod_eq_of_lt hn]
  | succ f ih =>
      intro f2 n _ h2
      by_cases hn : n < 10
      · cases f2 with
        | zero => rw [natToStringAux, natToStringAux, if_pos hn, Nat.mod_eq_of_lt hn]
        | succ g => rw [natToStringAux, natToStringAux, if_pos hn, if_pos hn]
      · have hf2 : ∃ g, f2 = g + 1 := by
          cases f2 with
          | zero => omega
          | succ g => exact ⟨g, rfl⟩
        obtain ⟨g, rfl⟩ := hf2
        rw [natToStringAux, natToStringAux, if_neg hn, if_neg hn]
        have hd : n / 10 ≤ f + 9 := by omega
        have hd2 : n / 10 ≤ g + 9 := by omega
        rw [ih g (n / 10) hd hd2]

theorem natToString_eq (n : Nat) :
    natToString n =
      if n < 10 then [Char.ofNat (48 + n)]
      else natToString (n / 10) ++ [Char.ofNat (48 + n % 10)] := by
  unfold natToString
  rw [natToStringAux_congr n (n + 1) n (by omega) (by omega), natToStringAux]
  by_cases hn : n < 10
  · rw [if_pos hn, if_pos hn]
  · rw [if_neg hn, if_neg hn,
      natToStringAux_congr n (n / 10) (n / 10) (by omega) (by omega)]

theorem natToString_all_digits (n : Nat) : ∀ c ∈ natToString n, isDigitCh c = true := by
  induction n using Nat.strong_induction_on with
  | _ n ih =>
      intro c hc
      rw [natToString_eq] at hc
      by_cases hn : n < 10
      · rw [if_pos hn] at hc
        simp at hc
        exact hc ▸ (digitChar_facts n hn).1
      · rw [if_neg hn] at hc
        rcases List.mem_append.mp hc with h | h
        · exact ih (n / 10) (Nat.div_lt_self (by omega) (by omega)) c h
        · simp at h
          exact h ▸ (digitChar_facts (n % 10) (Nat.mod_lt _ (by omega))).1

theorem natToString_length_pos (n : Nat) : 1 ≤ (natToString n).length := by
  rw [natToString_eq]
  by_cases hn : n < 10
  · rw [if_pos hn]; simp
  · rw [if_neg hn]; simp

theorem digitsVal_append_one (xs : List Char) (c : Char) :
    digitsVal (xs ++ [c]) = digitsVal xs * 10 + (c.toNat - 48) := by
  simp [digitsVal, List.foldl_append]

theorem digitsVal_natToString (n : Nat) : digitsVal (natToString n) = n := by
  induction n using Nat.strong_induction_on with
  | _ n ih =>
      rw [natToString_eq]
      by_cases hn : n < 10
      · rw [if_pos hn]
        simp [digitsVal, (digitChar_facts n hn).2.1]
      · rw [if_neg hn, digitsVal_append_one,
          ih (n / 10) (Nat.div_lt_self (by omega) (by omega)),
          (digitChar_facts (n % 10) (Nat.mod_lt _ (by omega))).2.1]
        omega

theorem natToString_length_le (n : Nat) :
    ∀ k, 1 ≤ k → n < 10 ^ k → (natToString n).length ≤ k := by
  induction n using Nat.strong_induction_on with
  | _ n ih =>
      intro k hk hnk
      rw [natToString_eq]
      by_cases hn : n < 10
      · rw [if_pos hn]
        simpa using hk
      · rw [if_neg hn]
        have hk2 : 2 ≤ k := by
          by_contra hlt
          have hk1 : k = 1 := by omega
          subst hk1
          simp at hnk
          exact hn hnk
        have hp : 10 ^ k = 10 ^ (k - 1) * 10 := by
          conv_lhs => rw [show k = (k - 1) + 1 by omega]
          rw [pow_succ]
        have hdiv : n / 10 < 10 ^ (k - 1) := by
          rw [hp] at hnk
          omega
        have := ih (n / 10) (Nat.div_lt_self (by omega) (by omega)) (k - 1) (by omega) hdiv
        simp [List.length_append]
        omega

/-! ### Encoded-output character facts -/

theorem encodeBytes_all_alph (bs : List Nat) (h : ∀ x ∈ bs, x < 256) :
    ∀ c ∈ encodeBytes bs, isAlphCh c = true := by
  induction bs using encodeBytes.induct with
  | case1 b0 b1 b2 rest ih =>
      have h0 : b0 < 256 := h b0 (by simp)
      have h1 : b1 < 256 := h b1 (by simp)
      have h2 : b2 < 256 := h b2 (by simp)
      intro c hc
      rw [encodeBytes] at hc
      simp only [List.mem_cons] at hc
      rcases hc with hc | hc | hc | hc | hc
      · exact hc ▸ (encChar_facts _ (by omega)).2.1
      · exact hc ▸ (encChar_facts _ (by omega)).2.1
      · exact hc ▸ (encChar_facts _ (by omega)).2.1
      · exact hc ▸ (encChar_facts _ (by omega)).2.1
      · exact ih (fun x hx => h x (by simp [hx])) c hc
  | case2 b0 b1 =>
      have h0 : b0 < 256 := h b0 (by simp)
      have h1 : b1 < 256 := h b1 (by simp)
      intro c hc
      rw [encodeBytes] at hc
      simp only [List.mem_cons, List.not_mem_nil, or_false] at hc
      rcases hc with hc | hc | hc
      · exact hc ▸ (encChar_facts _ (by omega)).2.1
      · exact hc ▸ (encChar_facts _ (by omega)).2.1
      · exact hc ▸ (encChar_facts _ (by omega)).2.1
  | case3 b0 =>
      have h0 : b0 < 256 := h b0 (by simp)
      intro c hc
      rw [encodeBytes] at hc
      simp only [List.mem_cons, List.not_mem_nil, or_false] at hc
      rcases hc with hc | hc
      · exact hc ▸ (encChar_facts _ (by omega)).2.1
      · exact hc ▸ (encChar_facts _ (by omega)).2.1
  | case4 => intro c hc; simp [encodeBytes] at hc

theorem encodeBytes_length_pos (bs : List Nat) (h : bs ≠ []) :
    1 ≤ (encodeBytes bs).length := by
  match bs with
  | [] => exact absurd rfl h
  | [b0] => simp [encodeBytes]
  | [b0, b1] => simp [encodeBytes]
  | b0 :: b1 :: b2 :: rest => simp [encodeBytes]

/-! ### Constant-time comparison -/

theorem lor_zero_iff (a b : Nat) : a ||| b = 0 ↔ a = 0 ∧ b = 0 := by
  constructor
  · intro h
    constructor
    · refine Nat.zero_of_testBit_eq_false fun i => ?_
      have := congrArg (fun x => Nat.testBit x i) h
      simp [Nat.testBit_lor] at this
      exact this.1
    · refine Nat.zero_of_testBit_eq_false fun i => ?_
      have := congrArg (fun x => Nat.testBit x i) h
      simp [Nat.testBit_lor] at this
      exact this.2
  · rintro ⟨rfl, rfl⟩
    rfl

theorem foldl_lor_zero (l : List Nat) :
    ∀ a, l.foldl (fun x y => x ||| y) a = 0 ↔ a = 0 ∧ ∀ x ∈ l, x = 0 := by
  induction l with
  | nil => intro a; simp
  | cons b l ih =>
      intro a
      rw [List.foldl_cons, ih (a ||| b)]
      rw [lor_zero_iff]
      constructor
      · rintro ⟨⟨ha, hb⟩, hl⟩
        exact ⟨ha, fun x hx => by rcases List.mem_cons.mp hx with h | h; exact h ▸ hb; exact hl x h⟩
      · rintro ⟨ha, hl⟩
        exact ⟨⟨ha, hl b (by simp)⟩, fun x hx => hl x (by simp [hx])⟩

theorem zipWith_xor_zero (x : List Nat) :
    ∀ y : List Nat, x.length = y.length →
      ((∀ z ∈ List.zipWith (fun a b => a ^^^ b) x y, z = 0) ↔ x = y) := by
  induction x with
  | nil =>
      intro y hy
      cases y with
      | nil => simp
      | cons b m => simp at hy
  | cons a l ih =>
      intro y hy
      cases y with
      | nil => simp at hy
      | cons b m =>
          simp only [List.zipWith_cons_cons, List.mem_cons, List.cons.injEq]
          constructor
          · intro hz
            have hab : a ^^^ b = 0 := hz _ (Or.inl rfl)
            have : l = m := (ih m (by simpa using hy)).mp (fun z hzm => hz z (Or.inr hzm))
            exact ⟨Nat.xor_eq_zero.mp hab, this⟩
          · rintro ⟨rfl, rfl⟩
            intro z hz
            rcases hz with h | h
            · simp [h]
            · exact ((ih _ rfl).mpr rfl) z h

theorem constantTimeCompare_eq_one (x y : List Nat) :
    constantTimeCompare x y = 1 ↔ x = y := by
  unfold constantTimeCompare
  by_cases hlen : x.length = y.length
  · rw [if_neg (fun hne => hne hlen)]
    by_cases hz : (List.zipWith (fun a b => a ^^^ b) x y).foldl (fun a b => a ||| b) 0 = 0
    · rw [if_pos hz]
      constructor
      · intro _
        exact (zipWith_xor_zero x y hlen).mp ((foldl_lor_zero _ 0).mp hz).2
      · intro _; rfl
    · rw [if_neg hz]
      constructor
      · intro h; exact absurd h (by decide)
      · intro hxy
        exact absurd ((foldl_lor_zero _ 0).mpr ⟨rfl, (zipWith_xor_zero x y hlen).mpr hxy⟩) hz
  · rw [if_pos hlen]
    constructor
    · intro h; exact absurd h (by decide)
    · intro h; exact absurd (congrArg List.length h) hlen

/-! ### Grammar matcher lemmas -/

theorem dropLit_append (lit r : List Char) : dropLit lit (lit ++ r) = some r := by
  induction lit with
  | nil => rfl
  | cons c cs ih => simp [dropLit, ih]

theorem dropLit_sound (lit : List Char) :
    ∀ s r, dropLit lit s = some r → s = lit ++ r := by
  induction lit with
  | nil =>
      intro s r h
      simp [dropLit] at h
      simp [h]
  | cons c cs ih =>
      intro s r h
      cases s with
      | nil => simp [dropLit] at h
      | cons x xs =>
          simp only [dropLit] at h
          by_cases hx : x = c
          · rw [if_pos hx] at h
            have := ih xs r h
            simp [hx, this]
          · rw [if_neg hx] at h
            cases h

theorem munchDigits_exact (lo hi : Nat) (stop : Char) (d r : List Char)
    (hd : ∀ c ∈ d, isDigitCh c = true) (hlo : lo ≤ d.length) (hhi : d.length ≤ hi)
    (hstop : isDigitCh stop = false) :
    munchDigits lo hi stop (d ++ stop :: r) = some (d, r) := by
  obtain ⟨h1, h2⟩ := takeWhile_append_stop isDigitCh d r stop hd hstop
  simp [munchDigits, h1, h2, hlo, hhi]

theorem munchAlph_exact (stop : Char) (d r : List Char)
    (hd : ∀ c ∈ d, isAlphCh c = true) (h1 : 1 ≤ d.length)
    (hstop : isAlphCh stop = false) :
    munchAlph stop (d ++ stop :: r) = some (d, r) := by
  obtain ⟨ht, hdr⟩ := takeWhile_append_stop isAlphCh d r stop hd hstop
  simp [munchAlph, ht, hdr, h1]

theorem munchDigits_sound (lo hi : Nat) (stop : Char) (s d r : List Char)
    (h : munchDigits lo hi stop s = some (d, r)) :
    s = d ++ stop :: r ∧ (∀ c ∈ d, isDigitCh c = true) ∧ lo ≤ d.length ∧ d.length ≤ hi := by
  simp only [munchDigits] at h
  split at h
  next c rest heq =>
    split at h
    next hcond =>
      obtain ⟨hlo, hhi, hcs⟩ := hcond
      obtain ⟨hd0, hr0⟩ := Prod.mk.injEq .. ▸ Option.some.injEq .. ▸ h
      subst hd0
      subst hr0
      subst hcs
      refine ⟨?_, mem_takeWhile _ _, hlo, hhi⟩
      conv_lhs => rw [← List.takeWhile_append_dropWhile (p := isDigitCh) (l := s)]
      rw [heq]
    next => cases h
  next => cases h

theorem munchAlph_sound (stop : Char) (s d r : List Char)
    (h : munchAlph stop s = some (d, r)) :
    s = d ++ stop :: r ∧ (∀ c ∈ d, isAlphCh c = true) ∧ 1 ≤ d.length := by
  simp only [munchAlph] at h
  split at h
  next c rest heq =>
    split at h
    next hcond =>
      obtain ⟨h1, hcs⟩ := hcond
      obtain ⟨hd0, hr0⟩ := Prod.mk.injEq .. ▸ Option.some.injEq .. ▸ h
      subst hd0
      subst hr0
      subst hcs
      refine ⟨?_, mem_takeWhile _ _, h1⟩
      conv_lhs => rw [← List.takeWhile_append_dropWhile (p := isAlphCh) (l := s)]
      rw [heq]
    next => cases h
  next => cases h

theorem rxMatch_build (v t m th sa h : List Char)
    (hv : ∀ c ∈ v, isDigitCh c = true) (hv1 : 1 ≤ v.length) (hv4 : v.length ≤ 4)
    (ht : ∀ c ∈ t, isDigitCh c = true) (ht1 : 1 ≤ t.length) (ht10 : t.length ≤ 10)
    (hm : ∀ c ∈ m, isDigitCh c = true) (hm1 : 1 ≤ m.length) (hm10 : m.length ≤ 10)
    (hth : ∀ c ∈ th, isDigitCh c = true) (hth1 : 1 ≤ th.length) (hth3 : th.length ≤ 3)
    (hsa : ∀ c ∈ sa, isAlphCh c = true) (hsa1 : 1 ≤ sa.length)
    (hh : ∀ c ∈ h, isAlphCh c = true) (hh1 : 1 ≤ h.length) :
    rxMatch (headerChars ++ (v ++ '$' :: (t ++ ',' :: (m ++ ',' :: (th ++ '$' :: (sa ++ '$' :: h)))))) =
      some ⟨v, t, m, th, sa, h⟩ := by
  simp only [rxMatch, dropLit_append,
    munchDigits_exact 1 4 '$' v (t ++ ',' :: (m ++ ',' :: (th ++ '$' :: (sa ++ '$' :: h))))
      hv hv1 hv4 (by decide),
    munchDigits_exact 1 10 ',' t (m ++ ',' :: (th ++ '$' :: (sa ++ '$' :: h)))
      ht ht1 ht10 (by decide),
    munchDigits_exact 1 10 ',' m (th ++ '$' :: (sa ++ '$' :: h)) hm hm1 hm10 (by decide),
    munchDigits_exact 1 3 '$' th (sa ++ '$' :: h) hth hth1 hth3 (by decide),
    munchAlph_exact '$' sa h hsa hsa1 (by decide),
    (takeWhile_all isAlphCh h hh).1, (takeWhile_all isAlphCh h hh).2]
  simp [hh1]

theorem rxMatch_sound (s : List Char) (mm : RxMatch) (h : rxMatch s = some mm) :
    s = headerChars ++ (mm.version ++ '$' :: (mm.time ++ ',' :: (mm.memory ++ ',' ::
        (mm.threads ++ '$' :: (mm.salt ++ '$' :: mm.hash))))) ∧
      (∀ c ∈ mm.version, isDigitCh c = true) ∧ 1 ≤ mm.version.length ∧ mm.version.length ≤ 4 ∧
      (∀ c ∈ mm.time, isDigitCh c = true) ∧ 1 ≤ mm.time.length ∧ mm.time.length ≤ 10 ∧
      (∀ c ∈ mm.memory, isDigitCh c = true) ∧ 1 ≤ mm.memory.length ∧ mm.memory.length ≤ 10 ∧
      (∀ c ∈ mm.threads, isDigitCh c = true) ∧ 1 ≤ mm.threads.length ∧ mm.threads.length ≤ 3 ∧
      (∀ c ∈ mm.salt, isAlphCh c = true) ∧ 1 ≤ mm.salt.length ∧
      (∀ c ∈ mm.hash, isAlphCh c = true) ∧ 1 ≤ mm.hash.length := by
  simp only [rxMatch] at h
  split at h
  next => cases h
  next r0 e0 =>
    split at h
    next => cases h
    next v r1 e1 =>
      split at h
      next => cases h
      next t r2 e2 =>
        split at h
        next => cases h
        next m r3 e3 =>
          split at h
          next => cases h
          next th r4 e4 =>
            split at h
            next => cases h
            next sa r5 e5 =>
              split at h
              next hcond =>
                obtain ⟨hh1, hdw⟩ := hcond
                have hmm := Option.some.inj h
                subst hmm
                dsimp only
                obtain ⟨hr0, hv, hv1, hv4⟩ := munchDigits_sound 1 4 '$' r0 v r1 e1
                obtain ⟨hr1, ht, ht1, ht10⟩ := munchDigits_sound 1 10 ',' r1 t r2 e2
                obtain ⟨hr2, hm, hm1, hm10⟩ := munchDigits_sound 1 10 ',' r2 m r3 e3
                obtain ⟨hr3, hth, hth1, hth3⟩ := munchDigits_sound 1 3 '$' r3 th r4 e4
                obtain ⟨hr4, hsa, hsa1⟩ := munchAlph_sound '$' r4 sa r5 e5
                have hs : s = headerChars ++ r0 := dropLit_sound headerChars s r0 e0
                have hr5 : r5 = r5.takeWhile isAlphCh := by
                  conv_lhs => rw [← List.takeWhile_append_dropWhile (p := isAlphCh) (l := r5)]
                  rw [hdw, List.append_nil]
                refine ⟨?_, hv, hv1, hv4, ht, ht1, ht10, hm, hm1, hm10, hth, hth1, hth3,
                  hsa, hsa1, ?_, ?_⟩
                · rw [hs, hr0, hr1, hr2, hr3, hr4, ← hr5]
                · intro c hc
                  exact mem_takeWhile isAlphCh r5 c (hr5 ▸ hc)
                · simpa using hh1
              next => cases h

theorem isHashedPassword_iff (s : List Char) : IsHashedPassword s = true ↔ Grammatical s := by
  constructor
  · intro h
    unfold IsHashedPassword at h
    cases e : rxMatch s with
    | none => rw [e] at h; cases h
    | some mm =>
        obtain ⟨hs, hv, hv1, hv4, ht, ht1, ht10, hm, hm1, hm10, hth, hth1, hth3,
          hsa, hsa1, hh, hh1⟩ := rxMatch_sound s mm e
        exact ⟨mm.version, mm.time, mm.memory, mm.threads, mm.salt, mm.hash, hs, hv, hv1, hv4,
          ht, ht1, ht10, hm, hm1, hm10, hth, hth1, hth3, hsa, hsa1, hh, hh1⟩
  · rintro ⟨v, t, m, th, sa, h, rfl, hv, hv1, hv4, ht, ht1, ht10, hm, hm1, hm10,
      hth, hth1, hth3, hsa, hsa1, hh, hh1⟩
    unfold IsHashedPassword
    rw [rxMatch_build v t m th sa h hv hv1 hv4 ht ht1 ht10 hm hm1 hm10 hth hth1 hth3
      hsa hsa1 hh hh1]
    rfl

/-! ### Parse case analysis -/

theorem parse_noMatch (s : List Char) (h : rxMatch s = none) :
    newHashedFromHashedPassword s = .error .invalidHash := by
  simp [newHashedFromHashedPassword, h]

theorem parse_badVersion (s : List Char) (mm : RxMatch) (h : rxMatch s = some mm)
    (hv : digitsVal mm.version ≠ argon2Version) :
    newHashedFromHashedPassword s = .error .invalidArgon2Version := by
  simp [newHashedFromHashedPassword, h, hv]

theorem parse_hashDecodeErr (s : List Char) (mm : RxMatch) (e : DecodeErr)
    (h : rxMatch s = some mm) (hv : digitsVal mm.version = argon2Version)
    (he : decodeString mm.hash = .error e) :
    newHashedFromHashedPassword s = .error (.decodeError e) := by
  simp [newHashedFromHashedPassword, h, hv, he]

theorem parse_saltDecodeErr (s : List Char) (mm : RxMatch) (e : DecodeErr) (rh : List Nat)
    (h : rxMatch s = some mm) (hv : digitsVal mm.version = argon2Version)
    (hh : decodeString mm.hash = .ok rh) (he : decodeString mm.salt = .error e) :
    newHashedFromHashedPassword s = .error (.decodeError e) := by
  simp [newHashedFromHashedPassword, h, hv, hh, he]

theorem parse_badComplexity (s : List Char) (mm : RxMatch) (rh rs : List Nat)
    (h : rxMatch s = some mm) (hv : digitsVal mm.version = argon2Version)
    (hh : decodeString mm.hash = .ok rh) (hs : decodeString mm.salt = .ok rs)
    (hbad : digitsVal mm.time = 0 ∨ digitsVal mm.time > 4294967295 ∨
      digitsVal mm.memory > 4294967295 ∨ digitsVal mm.threads = 0 ∨ digitsVal mm.threads > 255) :
    newHashedFromHashedPassword s = .error .invalidComplexity := by
  simp [newHashedFromHashedPassword, h, hv, hh, hs, hbad]

theorem parse_ok (s : List Char) (mm : RxMatch) (rh rs : List Nat)
    (h : rxMatch s = some mm) (hv : digitsVal mm.version = argon2Version)
    (hh : decodeString mm.hash = .ok rh) (hs : decodeString mm.salt = .ok rs)
    (hgood : ¬(digitsVal mm.time = 0 ∨ digitsVal mm.time > 4294967295 ∨
      digitsVal mm.memory > 4294967295 ∨ digitsVal mm.threads = 0 ∨
      digitsVal mm.threads > 255)) :
    newHashedFromHashedPassword s =
      .ok ⟨digitsVal mm.time, digitsVal mm.memory, digitsVal mm.threads, rh, rs⟩ := by
  simp [newHashedFromHashedPassword, h, hv, hh, hs, hgood]

/-! ### Compare case analysis -/

theorem compare_parseErr (idKey : IDKeyFn) (t : List Char) (p : List Nat) (e : HashErr)
    (h : newHashedFromHashedPassword t = .error e) : Compare idKey t p = .error e := by
  simp [Compare, h]

theorem compare_parsed (idKey : IDKeyFn) (t : List Char) (p : List Nat) (h : hashed)
    (hp : newHashedFromHashedPassword t = .ok h) :
    Compare idKey t p =
      if idKey p h.salt h.time h.memory h.threads h.hash.length = h.hash then .ok ()
      else .error .mismatchedHashAndPassword := by
  unfold Compare
  rw [hp]
  dsimp only
  by_cases he : idKey p h.salt h.time h.memory h.threads h.hash.length = h.hash
  · rw [if_pos ((constantTimeCompare_eq_one _ _).mpr he.symm), if_pos he]
  · rw [if_neg ?_, if_neg he]
    intro hc
    exact he ((constantTimeCompare_eq_one _ _).mp hc).symm

/-! ### Hash-then-parse composition -/

theorem hashPassword_ok (idKey : IDKeyFn) (randRead : Nat → Except Nat (List Nat))
    (pw : List Nat) (time memory threads keyLen : Nat) (salt : List Nat)
    (hr : randRead 16 = .ok salt) :
    HashPassword idKey randRead pw time memory threads keyLen =
      .ok (formatRecord argon2Version (if time = 0 then defaultTime else time)
        (if memory = 0 then defaultMemory else memory)
        (if threads = 0 then defaultThreads else threads)
        (encodeBytes salt)
        (encodeBytes (idKey pw salt (if time = 0 then defaultTime else time)
          (if memory = 0 then defaultMemory else memory)
          (if threads = 0 then defaultThreads else threads)
          (if keyLen = 0 then defaultKeyLen else keyLen)))) := by
  simp only [HashPassword, generateSalt, saltLen, hr]

theorem hashPassword_randErr (idKey : IDKeyFn) (randRead : Nat → Except Nat (List Nat))
    (pw : List Nat) (time memory threads keyLen : Nat) (e : Nat)
    (hr : randRead 16 = .error e) :
    HashPassword idKey randRead pw time memory threads keyLen = .error (.randomness e) := by
  simp only [HashPassword, generateSalt, saltLen, hr]

theorem parse_format (time memory threads : Nat) (saltB hashB : List Nat)
    (ht0 : 1 ≤ time) (ht : time ≤ 4294967295)
    (hmem : memory ≤ 4294967295)
    (hth0 : 1 ≤ threads) (hth : threads ≤ 255)
    (hsb : ∀ x ∈ saltB, x < 256) (hsn : saltB ≠ [])
    (hhb : ∀ x ∈ hashB, x < 256) (hhn : hashB ≠ []) :
    newHashedFromHashedPassword
        (formatRecord argon2Version time memory threads (encodeBytes saltB) (encodeBytes hashB)) =
      .ok ⟨time, memory, threads, hashB, saltB⟩ := by
  have hrx : rxMatch (formatRecord argon2Version time memory threads (encodeBytes saltB)
      (encodeBytes hashB)) = some ⟨natToString argon2Version, natToString time,
        natToString memory, natToString threads, encodeBytes saltB, encodeBytes hashB⟩ :=
    rxMatch_build (natToString argon2Version) (natToString time) (natToString memory)
      (natToString threads) (encodeBytes saltB) (encodeBytes hashB)
      (natToString_all_digits _) (natToString_length_pos _) (by decide)
      (natToString_all_digits _) (natToString_length_pos _)
      (natToString_length_le time 10 (by omega) (Nat.lt_of_le_of_lt ht (by norm_num)))
      (natToString_all_digits _) (natToString_length_pos _)
      (natToString_length_le memory 10 (by omega) (Nat.lt_of_le_of_lt hmem (by norm_num)))
      (natToString_all_digits _) (natToString_length_pos _)
      (natToString_length_le threads 3 (by omega) (Nat.lt_of_le_of_lt hth (by norm_num)))
      (encodeBytes_all_alph saltB hsb) (encodeBytes_length_pos saltB hsn)
      (encodeBytes_all_alph hashB hhb) (encodeBytes_length_pos hashB hhn)
  have hres := parse_ok _ _ hashB saltB hrx (by dsimp only; rw [digitsVal_natToString])
    (decode_encode_core hashB hhb 0) (decode_encode_core saltB hsb 0)
    (by dsimp only; rw [digitsVal_natToString, digitsVal_natToString, digitsVal_natToString]
        omega)
  rw [hres]
  dsimp only
  rw [digitsVal_natToString, digitsVal_natToString, digitsVal_natToString]

/-! ### Claim theorems -/

/-- C2: for every text that parses into parameters and every password, `Compare`
derives with output length equal to the embedded hash's length, succeeds exactly
when the derived bytes equal the embedded hash, returns
`ErrMismatchedHashAndPassword` otherwise, and propagates parse errors
unchanged. -/
theorem C2_compare_spec (idKey : IDKeyFn) (t : List Char) (p : List Nat) :
    (∀ e, newHashedFromHashedPassword t = .error e → Compare idKey t p = .error e) ∧
      (∀ hp : hashed, newHashedFromHashedPassword t = .ok hp →
        ((Compare idKey t p = .ok () ↔
            idKey p hp.salt hp.time hp.memory hp.threads hp.hash.length = hp.hash) ∧
          (idKey p hp.salt hp.time hp.memory hp.threads hp.hash.length ≠ hp.hash →
            Compare idKey t p = .error .mismatchedHashAndPassword))) := by
  refine ⟨fun e he => compare_parseErr idKey t p e he, fun hp hok => ?_⟩
  have hc := compare_parsed idKey t p hp hok
  by_cases heq : idKey p hp.salt hp.time hp.memory hp.threads hp.hash.length = hp.hash
  · rw [hc, if_pos heq]
    exact ⟨⟨fun _ => heq, fun _ => rfl⟩, fun hne => absurd heq hne⟩
  · rw [hc, if_neg heq]
    exact ⟨⟨fun habs => Except.noConfusion habs, fun habs => absurd habs heq⟩, fun _ => rfl⟩

/-- Witness for C2: a wrong-password comparison on a concrete record yields the
mismatch error. -/
theorem C2_witness : Compare egIdKeyZero egRecordA [5] = .error .mismatchedHashAndPassword := by
  have hc := C2_compare_spec egIdKeyZero egRecordA [5]
  exact (hc.2 ⟨1, 2, 3, [12, 48, 195], [8, 32, 130]⟩ (by decide)).2 (by decide)

/-- C3 counterexample: on a grammar-matching record whose version field is 18
and whose salt segment cannot decode, the parser reports the version error,
not the salt decode error the claimed check order (salt decode before version)
would produce. -/
theorem C3_counterexample :
    rxMatch egBadVersionBadSalt = some egBadVersionBadSaltMatch ∧
      decodeString egBadVersionBadSaltMatch.salt = .error (.corrupt 4) ∧
      newHashedFromHashedPassword egBadVersionBadSalt = .error .invalidArgon2Version := by
  decide

/-- C3 (amended): `parse` performs its checks in the order (1) grammar match
(`ErrInvalidHash`), (2) version check (`ErrInvalidArgon2Version`), (3) hash
decode, (4) salt decode, (5) complexity bounds (`ErrInvalidComplexity`); the
first failing check determines the returned error. -/
theorem C3_parse_check_order (s : List Char) :
    (rxMatch s = none → newHashedFromHashedPassword s = .error .invalidHash) ∧
      (∀ mm, rxMatch s = some mm → digitsVal mm.version ≠ argon2Version →
        newHashedFromHashedPassword s = .error .invalidArgon2Version) ∧
      (∀ mm e, rxMatch s = some mm → digitsVal mm.version = argon2Version →
        decodeString mm.hash = .error e →
        newHashedFromHashedPassword s = .error (.decodeError e)) ∧
      (∀ mm e rh, rxMatch s = some mm → digitsVal mm.version = argon2Version →
        decodeString mm.hash = .ok rh → decodeString mm.salt = .error e →
        newHashedFromHashedPassword s = .error (.decodeError e)) ∧
      (∀ mm rh rs, rxMatch s = some mm → digitsVal mm.version = argon2Version →
        decodeString mm.hash = .ok rh → decodeString mm.salt = .ok rs →
        (digitsVal mm.time = 0 ∨ digitsVal mm.time > 4294967295 ∨
          digitsVal mm.memory > 4294967295 ∨ digitsVal mm.threads = 0 ∨
          digitsVal mm.threads > 255) →
        newHashedFromHashedPassword s = .error .invalidComplexity) :=
  ⟨fun h => parse_noMatch s h,
    fun mm h hv => parse_badVersion s mm h hv,
    fun mm e h hv he => parse_hashDecodeErr s mm e h hv he,
    fun mm e rh h hv hh he => parse_saltDecodeErr s mm e rh h hv hh he,
    fun mm rh rs h hv hh hs hbad => parse_badComplexity s mm rh rs h hv hh hs hbad⟩

/-- Witness for C3: the version check fires on a concrete record before either
decode step. -/
theorem C3_witness :
    newHashedFromHashedPassword egBadVersionBadSalt = .error .invalidArgon2Version :=
  (C3_parse_check_order egBadVersionBadSalt).2.1 egBadVersionBadSaltMatch (by decide) (by decide)

/-- C4: for a grammar-matching record with decodable salt and hash and matching
version, `parse` returns `ErrInvalidComplexity` exactly when time = 0, time >
2^32-1, memory > 2^32-1, threads = 0, or threads > 255; otherwise it succeeds
(in particular, memory = 0 has no lower-bound check). -/
theorem C4_complexity_iff (s : List Char) (mm : RxMatch) (rh rs : List Nat)
    (h : rxMatch s = some mm) (hv : digitsVal mm.version = argon2Version)
    (hh : decodeString mm.hash = .ok rh) (hs : decodeString mm.salt = .ok rs) :
    (newHashedFromHashedPassword s = .error .invalidComplexity ↔
      (digitsVal mm.time = 0 ∨ digitsVal mm.time > 4294967295 ∨
        digitsVal mm.memory > 4294967295 ∨ digitsVal mm.threads = 0 ∨
        digitsVal mm.threads > 255)) ∧
      (¬(digitsVal mm.time = 0 ∨ digitsVal mm.time > 4294967295 ∨
          digitsVal mm.memory > 4294967295 ∨ digitsVal mm.threads = 0 ∨
          digitsVal mm.threads > 255) →
        newHashedFromHashedPassword s =
          .ok ⟨digitsVal mm.time, digitsVal mm.memory, digitsVal mm.threads, rh, rs⟩) := by
  by_cases hbad : digitsVal mm.time = 0 ∨ digitsVal mm.time > 4294967295 ∨
      digitsVal mm.memory > 4294967295 ∨ digitsVal mm.threads = 0 ∨ digitsVal mm.threads > 255
  · exact ⟨⟨fun _ => hbad, fun _ => parse_badComplexity s mm rh rs h hv hh hs hbad⟩,
      fun hgood => absurd hbad hgood⟩
  · have hok := parse_ok s mm rh rs h hv hh hs hbad
    refine ⟨⟨fun hc => ?_, fun hb => absurd hb hbad⟩, fun _ => hok⟩
    rw [hok] at hc
    exact Except.noConfusion hc

/-- Witness for C4: a record with memory = 0 and everything else in range
parses successfully. -/
theorem C4_witness :
    newHashedFromHashedPassword egMemoryZero = .ok ⟨1, 0, 1, [12, 48, 195], [8, 32, 130]⟩ := by
  have hc := C4_complexity_iff egMemoryZero egMemoryZeroMatch [12, 48, 195] [8, 32, 130]
    (by decide) (by decide) (by decide) (by decide)
  exact (hc.2 (by decide)).trans (by decide)

/-- C5: a grammar-matching record whose version differs from the compiled-in
argon2 version is rejected with `ErrInvalidArgon2Version` by `parse` and hence
by `Compare`, for every derivation primitive and password (so derivation is
never attempted), regardless of the complexity values. -/
theorem C5_version_check (s : List Char) (mm : RxMatch)
    (h : rxMatch s = some mm) (hv : digitsVal mm.version ≠ argon2Version) :
    newHashedFromHashedPassword s = .error .invalidArgon2Version ∧
      ∀ (idKey : IDKeyFn) (p : List Nat), Compare idKey s p = .error .invalidArgon2Version := by
  have hp := parse_badVersion s mm h hv
  exact ⟨hp, fun idKey p => compare_parseErr idKey s p _ hp⟩

/-- Witness for C5: a version-18 record with in-range complexity values is
rejected with the version error. -/
theorem C5_witness :
    newHashedFromHashedPassword egBadVersionGoodComplexity = .error .invalidArgon2Version ∧
      Compare egIdKeyZero egBadVersionGoodComplexity [5] = .error .invalidArgon2Version := by
  have hc := C5_version_check egBadVersionGoodComplexity egBadVersionGoodComplexityMatch
    (by decide) (by decide)
  exact ⟨hc.1, hc.2 egIdKeyZero [5]⟩

/-- C6: decoding the Alphabet Codec encoding of any byte sequence yields
exactly that sequence. -/
theorem C6_decode_encode (bs : List Nat) (h : ∀ x ∈ bs, x < 256) :
    decodeString (encodeBytes bs) = .ok bs :=
  decode_encode_core bs h 0

/-- Witness for C6: the round-trip on a concrete byte sequence. -/
theorem C6_witness : decodeString (encodeBytes [0, 255, 77, 42, 1]) = .ok [0, 255, 77, 42, 1] :=
  C6_decode_encode [0, 255, 77, 42, 1] (by decide)

/-- C7 counterexample: the two-character string `.B` decodes without error (the
non-strict decoder discards its nonzero trailing bits), yet re-encoding the
decoded byte yields `..`, not `.B`. -/
theorem C7_counterexample :
    decodeString egNonCanonical = .ok [0] ∧ encodeBytes [0] ≠ egNonCanonical := by decide

/-- C7 (amended): re-encoding a decoded string reproduces the string for
canonical encodings, i.e. for every string in the image of `encodeBytes`;
merely decoding without error is not enough, since the decoder also accepts
strings with nonzero trailing bits. -/
theorem C7_encode_decode_canonical (bs : List Nat) (h : ∀ x ∈ bs, x < 256) :
    ∃ ds, decodeString (encodeBytes bs) = .ok ds ∧ encodeBytes ds = encodeBytes bs :=
  ⟨bs, decode_encode_core bs h 0, rfl⟩

/-- Witness for C7: the amended round-trip on a concrete encoding. -/
theorem C7_witness :
    ∃ ds, decodeString (encodeBytes [10, 20]) = .ok ds ∧ encodeBytes ds = encodeBytes [10, 20] :=
  C7_encode_decode_canonical [10, 20] (by decide)

/-- C9: `IsHashedPassword` returns true exactly on texts matching the anchored
structural grammar (1-4 digit version, 1-10 digit time and memory, 1-3 digit
threads, non-empty alphabet salt and hash); it never throws and requires no
decode or complexity validation. -/
theorem C9_isHashedPassword_grammar (s : List Char) :
    IsHashedPassword s = true ↔ Grammatical s :=
  isHashedPassword_iff s

/-- C10: there are structurally valid texts that fail to parse: a
grammar-matching record whose salt segment length is 5 ≡ 1 (mod 4) passes
`IsHashedPassword` but `Compare` rejects it with a decode error (never
`ErrInvalidHash`) for every derivation primitive and password. -/
theorem C10_structural_but_undecodable :
    IsHashedPassword egBadSaltLen = true ∧
      rxMatch egBadSaltLen = some egBadSaltLenMatch ∧
      egBadSaltLenMatch.salt.length % 4 = 1 ∧
      (∀ (idKey : IDKeyFn) (p : List Nat),
        Compare idKey egBadSaltLen p = .error (.decodeError (.corrupt 4))) ∧
      (∀ e : DecodeErr, HashErr.decodeError e ≠ HashErr.invalidHash) := by
  refine ⟨by decide, by decide, by decide, ?_, fun e h => HashErr.noConfusion h⟩
  intro idKey p
  exact compare_parseErr idKey egBadSaltLen p _ (by decide)

/-- C1: if the randomness source supplies a 16-byte salt and the derivation
primitive honours its contract (returns the requested number of bytes;
determinism holds because it is a function), then `HashPassword` succeeds and
`Compare` accepts the produced text with the same password, for every password
and in-range cost parameters. -/
theorem C1_hash_compare_roundtrip (idKey : IDKeyFn) (randRead : Nat → Except Nat (List Nat))
    (password : List Nat) (time memory threads keyLen : Nat) (salt : List Nat)
    (hr : randRead 16 = .ok salt) (hslen : salt.length = 16)
    (hsbytes : ∀ x ∈ salt, x < 256)
    (hklen : ∀ pw s t m th kl, (idKey pw s t m th kl).length = kl)
    (hkbytes : ∀ pw s t m th kl, ∀ x ∈ idKey pw s t m th kl, x < 256)
    (htime : time ≤ 4294967295) (hmem : memory ≤ 4294967295) (hth : threads ≤ 255) :
    ∃ text, HashPassword idKey randRead password time memory threads keyLen = .ok text ∧
      Compare idKey text password = .ok () := by
  refine ⟨_, hashPassword_ok idKey randRead password time memory threads keyLen salt hr, ?_⟩
  have hparse := parse_format (if time = 0 then defaultTime else time)
    (if memory = 0 then defaultMemory else memory)
    (if threads = 0 then defaultThreads else threads)
    salt
    (idKey password salt (if time = 0 then defaultTime else time)
      (if memory = 0 then defaultMemory else memory)
      (if threads = 0 then defaultThreads else threads)
      (if keyLen = 0 then defaultKeyLen else keyLen))
    (by by_cases h0 : time = 0 <;> simp [h0, defaultTime] <;> omega)
    (by by_cases h0 : time = 0 <;> simp [h0, defaultTime] <;> omega)
    (by by_cases h0 : memory = 0 <;> simp [h0, defaultMemory] <;> omega)
    (by by_cases h0 : threads = 0 <;> simp [h0, defaultThreads] <;> omega)
    (by by_cases h0 : threads = 0 <;> simp [h0, defaultThreads] <;> omega)
    hsbytes
    (by intro hnil; rw [hnil] at hslen; simp at hslen)
    (hkbytes password salt _ _ _ _)
    (by
      intro hnil
      have hlen := hklen password salt (if time = 0 then defaultTime else time)
        (if memory = 0 then defaultMemory else memory)
        (if threads = 0 then defaultThreads else threads)
        (if keyLen = 0 then defaultKeyLen else keyLen)
      rw [hnil] at hlen
      by_cases h0 : keyLen = 0 <;> simp [h0, defaultKeyLen] at hlen <;> omega)
  have hcmp := compare_parsed idKey _ password
    ⟨(if time = 0 then defaultTime else time), (if memory = 0 then defaultMemory else memory),
      (if threads = 0 then defaultThreads else threads),
      idKey password salt (if time = 0 then defaultTime else time)
        (if memory = 0 then defaultMemory else memory)
        (if threads = 0 then defaultThreads else threads)
        (if keyLen = 0 then defaultKeyLen else keyLen), salt⟩ hparse
  rw [hcmp]
  dsimp only
  rw [hklen password salt (if time = 0 then defaultTime else time)
    (if memory = 0 then defaultMemory else memory)
    (if threads = 0 then defaultThreads else threads)
    (if keyLen = 0 then defaultKeyLen else keyLen)]
  rw [if_pos rfl]

/-- Witness for C1: default parameters, a constant randomness source and a
constant-output derivation stand-in produce a record that verifies. -/
theorem C1_witness :
    ∃ text, HashPassword egIdKeyZero egRandRead [1] 0 0 0 0 = .ok text ∧
      Compare egIdKeyZero text [1] = .ok () :=
  C1_hash_compare_roundtrip egIdKeyZero egRandRead [1] 0 0 0 0 (List.replicate 16 65) rfl
    (by decide)
    (by intro x hx; rw [List.eq_of_mem_replicate hx]; omega)
    (fun pw s t m th kl => List.length_replicate kl 0)
    (by intro pw s t m th kl x hx; rw [List.eq_of_mem_replicate hx]; omega)
    (by omega) (by omega) (by omega)

/-- C8: `HashPassword` replaces each zero-valued parameter with its default
(time = 1, memory = 65536, threads = 4, keyLen = 32), propagates the
randomness source's error unchanged when salt generation fails, and on success
emits the formatted record built from the compiled-in version, the
post-default parameters, and the encoded salt and derived hash;
`DefaultHashPassword` equals `HashPassword` with all-zero parameters. -/
theorem C8_hashPassword_spec (idKey : IDKeyFn)
    (randRead randFail : Nat → Except Nat (List Nat)) (pw : List Nat)
    (time memory threads keyLen : Nat) (salt : List Nat) (e : Nat)
    (hr : randRead 16 = .ok salt) (hf : randFail 16 = .error e) :
    DefaultHashPassword idKey randRead pw = HashPassword idKey randRead pw 0 0 0 0 ∧
      HashPassword idKey randFail pw time memory threads keyLen = .error (.randomness e) ∧
      HashPassword idKey randRead pw time memory threads keyLen =
        .ok (formatRecord argon2Version (if time = 0 then 1 else time)
          (if memory = 0 then 65536 else memory) (if threads = 0 then 4 else threads)
          (encodeBytes salt)
          (encodeBytes (idKey pw salt (if time = 0 then 1 else time)
            (if memory = 0 then 65536 else memory) (if threads = 0 then 4 else threads)
            (if keyLen = 0 then 32 else keyLen)))) := by
  refine ⟨rfl, hashPassword_randErr idKey randFail pw time memory threads keyLen e hf, ?_⟩
  have h := hashPassword_ok idKey randRead pw time memory threads keyLen salt hr
  simpa [defaultTime, defaultMemory, defaultThreads, defaultKeyLen] using h

/-- Witness for C8: concrete parameters 2, 32768, 2, 17 with a constant
randomness source, and a failing source propagating error code 7. -/
theorem C8_witness :
    DefaultHashPassword egIdKeyOne egRandRead [1] = HashPassword egIdKeyOne egRandRead [1] 0 0 0 0 ∧
      HashPassword egIdKeyOne egRandFail [1] 2 32768 2 17 = .error (.randomness 7) ∧
      HashPassword egIdKeyOne egRandRead [1] 2 32768 2 17 =
        .ok (formatRecord argon2Version 2 32768 2 (encodeBytes (List.replicate 16 65))
          (encodeBytes (egIdKeyOne [1] (List.replicate 16 65) 2 32768 2 17))) :=
  C8_hashPassword_spec egIdKeyOne egRandRead egRandFail [1] 2 32768 2 17
    (List.replicate 16 65) 7 rfl rfl

/-! ### Concrete sanity checks -/

example : decodeString egSaltAAAA = .ok [8, 32, 130] := by decide
example : encodeBytes [8, 32, 130] = egSaltAAAA := by decide
example : decodeString egSaltAAAAA = .error (.corrupt 4) := by decide
example : decodeString egNonCanonical = .ok [0] := by decide
example : IsHashedPassword egRecordA = true := by decide
example : IsHashedPassword egT1 = false := by decide
example :
    newHashedFromHashedPassword egRecordA = .ok ⟨1, 2, 3, [12, 48, 195], [8, 32, 130]⟩ := by
  decide

end Argon2id
